import Mathlib

/-!
Shallow embedding of the ChessMaster chess engine (src/script.js) and
verification of the spec's claims about it.

The source is a browser chess game working on a global mutable state:
`board` (an 8×8 array of `null` or two-character piece codes such as
`"wp"`), `turn`, `castlingRights`, `enPassantTarget`, `capturedPieces`,
`moveCount`, `halfMoveClock`, `pendingPromotion`, `gameMode`.  Here the
globals read by move generation are gathered in a `Globals` record and the
full game state in `GameState`; every function takes the state it reads
explicitly and returns the state it writes.  Coordinates are `Int`
because the source freely forms `r + direction` etc. before bounds
checks; out-of-range reads yield `none`, matching JavaScript's falsy
`undefined` for out-of-range array indexing.
-/

set_option maxHeartbeats 4000000

namespace ChessMaster

inductive Color
  | white
  | black
deriving DecidableEq

def Color.other : Color → Color
  | .white => .black
  | .black => .white

inductive PieceType
  | p
  | n
  | b
  | r
  | q
  | k
deriving DecidableEq

structure Piece where
  color : Color
  ptype : PieceType
deriving DecidableEq

abbrev Board := List (List (Option Piece))

structure Pos where
  r : Int
  c : Int
deriving DecidableEq

/-- The `special` tags of moves: `"double-push"`, `"enpassant"`,
`"castle-ks"`, `"castle-qs"` in the source. -/
inductive Special
  | doublePush
  | enpassant
  | castleKS
  | castleQS
deriving DecidableEq

structure Move where
  fromSq : Pos
  toSq : Pos
  special : Option Special
deriving DecidableEq

structure SideRights where
  kingSide : Bool
  queenSide : Bool
deriving DecidableEq

structure CastlingRights where
  white : SideRights
  black : SideRights
deriving DecidableEq

/-- The global variables read by move generation: `board`,
`castlingRights`, `enPassantTarget`. -/
structure Globals where
  board : Board
  castlingRights : CastlingRights
  enPassantTarget : Option Pos
deriving DecidableEq

/-- Source `isValidSquare(r, c)`. -/
def isValidSquare (r c : Int) : Bool :=
  decide (0 ≤ r) && decide (r < 8) && decide (0 ≤ c) && decide (c < 8)

/-- Read `board[r][c]`; out of range gives `none` (JS `undefined`, falsy). -/
def getSq (b : Board) (r c : Int) : Option Piece :=
  if isValidSquare r c then (b.getD r.toNat []).getD c.toNat none else none

/-- Write `board[r][c] = v` (only ever used with in-range coordinates). -/
def setSq (b : Board) (r c : Int) (v : Option Piece) : Board :=
  b.set r.toNat ((b.getD r.toNat []).set c.toNat v)

def rightsFor (cr : CastlingRights) : Color → SideRights
  | .white => cr.white
  | .black => cr.black

def setRightsFor (cr : CastlingRights) (color : Color) (sr : SideRights) :
    CastlingRights :=
  match color with
  | .white => { cr with white := sr }
  | .black => { cr with black := sr }

/-- Row-major traversal order of the board used by the source's nested
`for` loops. -/
def allSquares : List (Int × Int) :=
  (List.range 8).flatMap fun r => (List.range 8).map fun c => ((r : Int), (c : Int))

/-- Source `findKing(boardState, color)`: first square (row-major) holding the
side's king, defaulting to `{r:0, c:0}`. -/
def findKing (boardState : Board) (color : Color) : Pos :=
  match allSquares.find?
      (fun rc => decide (getSq boardState rc.1 rc.2 = some ⟨color, .k⟩)) with
  | some rc => ⟨rc.1, rc.2⟩
  | none => ⟨0, 0⟩

def knightOffsets : List (Int × Int) :=
  [(-2, -1), (-2, 1), (-1, -2), (-1, 2), (1, -2), (1, 2), (2, -1), (2, 1)]

/-- The ray directions of `isSquareAttacked`: the first four orthogonal
(rook/queen), the last four diagonal (bishop/queen). -/
def slideDirs : List (Int × Int) :=
  [(0, 1), (0, -1), (1, 0), (-1, 0), (1, 1), (1, -1), (-1, 1), (-1, -1)]

def kingAdjOffsets : List (Int × Int) :=
  [(-1, -1), (-1, 0), (-1, 1), (0, -1), (0, 1), (1, -1), (1, 0), (1, 1)]

/-- First piece along a ray, walking while the square stays on the board;
the fuel `8` bounds the at most seven steps a ray can take. -/
def rayFirstPiece (boardState : Board) : Nat → Int → Int → Int → Int → Option Piece
  | 0, _, _, _, _ => none
  | fuel + 1, tr, tc, dr, dc =>
    if isValidSquare tr tc then
      match getSq boardState tr tc with
      | some piece => some piece
      | none => rayFirstPiece boardState fuel (tr + dr) (tc + dc) dr dc
    else none

/-- Source `isSquareAttacked(r, c, defendingColor, boardState)`: pawn, knight,
sliding and king attacks against the square, by the enemy of the
defending side. -/
def isSquareAttacked (r c : Int) (defendingColor : Color) (boardState : Board) :
    Bool :=
  let enemy := defendingColor.other
  let attackRow := if defendingColor = .white then r - 1 else r + 1
  decide (getSq boardState attackRow (c - 1) = some ⟨enemy, .p⟩) ||
  decide (getSq boardState attackRow (c + 1) = some ⟨enemy, .p⟩) ||
  knightOffsets.any
    (fun d => decide (getSq boardState (r + d.1) (c + d.2) = some ⟨enemy, .n⟩)) ||
  (List.range 8).any (fun i =>
    let d := slideDirs.getD i (0, 0)
    match rayFirstPiece boardState 8 (r + d.1) (c + d.2) d.1 d.2 with
    | some piece =>
      decide (piece.color = enemy) &&
        (decide (piece.ptype = .q) ||
          (decide (i < 4) && decide (piece.ptype = .r)) ||
          (decide (4 ≤ i) && decide (piece.ptype = .b)))
    | none => false) ||
  kingAdjOffsets.any
    (fun d => decide (getSq boardState (r + d.1) (c + d.2) = some ⟨enemy, .k⟩))

/-- Source `canCastle(color, side)`: only consults the castling-rights record. -/
def canCastle (cr : CastlingRights) (color : Color) (kingSideWing : Bool) : Bool :=
  if kingSideWing then (rightsFor cr color).kingSide else (rightsFor cr color).queenSide

/-- Pawn branch of `getPseudoLegalMoves`. -/
def pawnMoves (g : Globals) (r c : Int) (color : Color) : List Move :=
  let direction : Int := if color = .white then -1 else 1
  let enemy := color.other
  let capAt : Int → List Move := fun tc =>
    let tr := r + direction
    if isValidSquare tr tc then
      (match getSq g.board tr tc with
        | some t => if t.color = enemy then [⟨⟨r, c⟩, ⟨tr, tc⟩, none⟩] else []
        | none => []) ++
      (match g.enPassantTarget with
        | some ep =>
          if tr = ep.r ∧ tc = ep.c then [⟨⟨r, c⟩, ⟨tr, tc⟩, some .enpassant⟩] else []
        | none => [])
    else []
  (if isValidSquare (r + direction) c ∧ getSq g.board (r + direction) c = none then
      ⟨⟨r, c⟩, ⟨r + direction, c⟩, none⟩ ::
        (if (color = .white ∧ r = 6) ∨ (color = .black ∧ r = 1) then
          (if isValidSquare (r + direction * 2) c ∧
              getSq g.board (r + direction * 2) c = none then
            [⟨⟨r, c⟩, ⟨r + direction * 2, c⟩, some .doublePush⟩]
          else [])
        else [])
    else []) ++ capAt (c - 1) ++ capAt (c + 1)

/-- Knight and adjacent-king moves: fixed-offset jumps onto empty or
enemy-occupied squares. -/
def jumpMoves (bs : Board) (color : Color) (r c : Int) (offs : List (Int × Int)) :
    List Move :=
  offs.flatMap fun d =>
    let tr := r + d.1
    let tc := c + d.2
    if isValidSquare tr tc then
      match getSq bs tr tc with
      | none => [⟨⟨r, c⟩, ⟨tr, tc⟩, none⟩]
      | some t => if t.color = color.other then [⟨⟨r, c⟩, ⟨tr, tc⟩, none⟩] else []
    else []

/-- Castling candidates of the king branch: right held and the intervening
squares empty (emptiness of an off-board square is JS-falsy, hence `= none`). -/
def kingCastleMoves (g : Globals) (r c : Int) (color : Color) : List Move :=
  (if canCastle g.castlingRights color true ∧
      getSq g.board r (c + 1) = none ∧ getSq g.board r (c + 2) = none then
    [⟨⟨r, c⟩, ⟨r, c + 2⟩, some .castleKS⟩]
  else []) ++
  (if canCastle g.castlingRights color false ∧
      getSq g.board r (c - 1) = none ∧ getSq g.board r (c - 2) = none ∧
        getSq g.board r (c - 3) = none then
    [⟨⟨r, c⟩, ⟨r, c - 2⟩, some .castleQS⟩]
  else [])

/-- One sliding ray: empty squares are destinations, the first occupied
square ends the ray and is a destination only when enemy-held. -/
def slideMovesAux (bs : Board) (color : Color) (fr fc : Int) (d : Int × Int) :
    Nat → Int → Int → List Move
  | 0, _, _ => []
  | fuel + 1, tr, tc =>
    if isValidSquare tr tc then
      match getSq bs tr tc with
      | none =>
        ⟨⟨fr, fc⟩, ⟨tr, tc⟩, none⟩ ::
          slideMovesAux bs color fr fc d fuel (tr + d.1) (tc + d.2)
      | some t => if t.color = color.other then [⟨⟨fr, fc⟩, ⟨tr, tc⟩, none⟩] else []
    else []

def slideMoves (bs : Board) (color : Color) (r c : Int) (dirs : List (Int × Int)) :
    List Move :=
  dirs.flatMap fun d => slideMovesAux bs color r c d 8 (r + d.1) (c + d.2)

/-- Source `getPseudoLegalMoves(r, c, piece)`, reading the globals `g`. -/
def getPseudoLegalMoves (g : Globals) (r c : Int) (piece : Piece) : List Move :=
  match piece.ptype with
  | .p => pawnMoves g r c piece.color
  | .n => jumpMoves g.board piece.color r c knightOffsets
  | .k => jumpMoves g.board piece.color r c kingAdjOffsets ++
      kingCastleMoves g r c piece.color
  | .r => slideMoves g.board piece.color r c (slideDirs.take 4)
  | .b => slideMoves g.board piece.color r c (slideDirs.drop 4)
  | .q => slideMoves g.board piece.color r c slideDirs

/-- The scratch copy `tempBoard` of `isMoveSafe`: clear an en-passant
victim, then relocate the moved piece.  (It does not relocate the castling
rook and does not apply promotion, exactly as the source's simulation.) -/
def simulateMove (bs : Board) (move : Move) : Board :=
  let fromPiece := getSq bs move.fromSq.r move.fromSq.c
  let t := if move.special = some .enpassant then
      setSq bs move.fromSq.r move.toSq.c none
    else bs
  setSq (setSq t move.toSq.r move.toSq.c fromPiece) move.fromSq.r move.fromSq.c none

/-- The square whose safety `isMoveSafe` checks after the simulation: the
landing square when the king itself moved, else the king's resting square
found on the simulated board. -/
def kingCheckSq (bs : Board) (move : Move) (color : Color) : Pos :=
  let fromPiece := getSq bs move.fromSq.r move.fromSq.c
  let kingPos := findKing (simulateMove bs move) color
  if fromPiece.map Piece.ptype = some .k then move.toSq else kingPos

/-- Source `isMoveSafe(move, color)` with the global `board` explicit: simulate
the move on a scratch copy, pre-move attack checks on the king's origin
and transit squares for castling, then the attack check on the king's
square in the simulated position. -/
def isMoveSafe (bs : Board) (move : Move) (color : Color) : Bool :=
  if move.special = some .castleKS then
    if isSquareAttacked move.fromSq.r move.fromSq.c color bs then false
    else if isSquareAttacked move.fromSq.r (move.fromSq.c + 1) color bs then false
    else !isSquareAttacked (kingCheckSq bs move color).r (kingCheckSq bs move color).c
      color (simulateMove bs move)
  else if move.special = some .castleQS then
    if isSquareAttacked move.fromSq.r move.fromSq.c color bs then false
    else if isSquareAttacked move.fromSq.r (move.fromSq.c - 1) color bs then false
    else !isSquareAttacked (kingCheckSq bs move color).r (kingCheckSq bs move color).c
      color (simulateMove bs move)
  else !isSquareAttacked (kingCheckSq bs move color).r (kingCheckSq bs move color).c
    color (simulateMove bs move)

/-- Source `getLegalMoves(color)`: row-major loop over the side's pieces, pseudo
moves filtered through `isMoveSafe`.  (The identical inline gather loop of
`minimax` is also this function.) -/
def getLegalMoves (g : Globals) (color : Color) : List Move :=
  allSquares.foldl
    (fun legalMoves rc =>
      match getSq g.board rc.1 rc.2 with
      | some piece =>
        if piece.color = color then
          legalMoves ++
            (getPseudoLegalMoves g rc.1 rc.2 piece).filter
              (fun move => isMoveSafe g.board move color)
        else legalMoves
      | none => legalMoves)
    []

inductive GameMode
  | pvp
  | solo
deriving DecidableEq

/-- The full game state mutated by `makeMove`, `handlePromotionChoice` and
`initGame`: the globals plus `turn`, `capturedPieces`, the move counters
and the promotion/game-over flags. -/
structure GameState where
  board : Board
  turn : Color
  castlingRights : CastlingRights
  enPassantTarget : Option Pos
  capturedW : List Piece
  capturedB : List Piece
  moveCount : Nat
  halfMoveClock : Nat
  pendingPromotion : Option Move
  gameMode : GameMode
  isGameOver : Bool
deriving DecidableEq

def GameState.globals (s : GameState) : Globals :=
  ⟨s.board, s.castlingRights, s.enPassantTarget⟩

/-- Source `trackCapture(piece)`: append a captured piece to the list keyed by
the captured piece's own color (`capturedPieces.w` / `capturedPieces.b`). -/
def trackCapture (s : GameState) : Option Piece → GameState
  | none => s
  | some piece =>
    match piece.color with
    | .white => { s with capturedW := s.capturedW ++ [piece] }
    | .black => { s with capturedB := s.capturedB ++ [piece] }

/-- Castling-rights update of `makeMove` (and of the search's move
simulation): a king move revokes both rights of the mover, a rook move
from column 0 / 7 revokes the corresponding wing. -/
def updateRights (cr : CastlingRights) (turn : Color) (fromPiece : Piece)
    (move : Move) : CastlingRights :=
  let cr1 :=
    if fromPiece.ptype = .k then
      setRightsFor cr turn ⟨false, false⟩
    else cr
  if fromPiece.ptype = .r then
    let cr2 :=
      if move.fromSq.c = 0 then
        setRightsFor cr1 turn ⟨(rightsFor cr1 turn).kingSide, false⟩
      else cr1
    if move.fromSq.c = 7 then
      setRightsFor cr2 turn ⟨false, (rightsFor cr2 turn).queenSide⟩
    else cr2
  else cr1

/-- Source `makeMove(move, promotionChoice)`.  A pawn reaching the last rank with
no supplied promotion choice either auto-queens (solo mode, black to move)
or parks the move in `pendingPromotion` and returns with nothing else
changed.  Otherwise: rights update, capture bookkeeping, piece
relocation, en-passant capture, castling rook relocation, promotion,
en-passant target, clock/counter updates, turn switch, and the
terminal-state check on the next side's legal moves.  (Reading an empty
origin square would fault in the source; such calls never happen and
return the state unchanged here.) -/
def makeMove (s : GameState) (move : Move) (promotionChoice : Option PieceType) :
    GameState :=
  match getSq s.board move.fromSq.r move.fromSq.c with
  | none => s
  | some fromPiece =>
    let needsPrompt := promotionChoice = none ∧ fromPiece.ptype = .p ∧
      (move.toSq.r = 0 ∨ move.toSq.r = 7)
    if needsPrompt ∧ ¬(s.gameMode = .solo ∧ s.turn = .black) then
      { s with pendingPromotion := some move }
    else
      let choice := if needsPrompt then some PieceType.q else promotionChoice
      let cr := updateRights s.castlingRights s.turn fromPiece move
      let targetPiece := getSq s.board move.toSq.r move.toSq.c
      let s1 := trackCapture s targetPiece
      let b := setSq s.board move.toSq.r move.toSq.c (some fromPiece)
      let b := setSq b move.fromSq.r move.fromSq.c none
      let (s2, b) :=
        if move.special = some .enpassant then
          (trackCapture s1 (getSq b move.fromSq.r move.toSq.c),
            setSq b move.fromSq.r move.toSq.c none)
        else (s1, b)
      let b :=
        if move.special = some .castleKS then
          setSq (setSq b move.fromSq.r 5 (getSq b move.fromSq.r 7))
            move.fromSq.r 7 none
        else b
      let b :=
        if move.special = some .castleQS then
          setSq (setSq b move.fromSq.r 3 (getSq b move.fromSq.r 0))
            move.fromSq.r 0 none
        else b
      let b :=
        match choice with
        | some t => setSq b move.toSq.r move.toSq.c (some ⟨s.turn, t⟩)
        | none => b
      let ep :=
        if move.special = some .doublePush then
          some (⟨(move.fromSq.r + move.toSq.r) / 2, move.fromSq.c⟩ : Pos)
        else none
      let newMoveCount := if s.turn = .white then s.moveCount + 1 else s.moveCount
      let newHalfMove :=
        if fromPiece.ptype = .p ∨ targetPiece.isSome then 0 else s.halfMoveClock + 1
      let newTurn := s.turn.other
      let nextMoves := getLegalMoves ⟨b, cr, ep⟩ newTurn
      { s2 with
        board := b
        castlingRights := cr
        enPassantTarget := ep
        moveCount := newMoveCount
        halfMoveClock := newHalfMove
        turn := newTurn
        isGameOver := if nextMoves.isEmpty then true else s.isGameOver }

/-- Source `handlePromotionChoice(type)`: when a promotion is pending, commit the
held move with the chosen piece and clear the pending state; when none is
pending the guard fails and nothing at all happens. -/
def handlePromotionChoice (s : GameState) (t : PieceType) : GameState :=
  match s.pendingPromotion with
  | some move => { makeMove s move (some t) with pendingPromotion := none }
  | none => s

/-- Source `PIECE_VALUES`, the search engine's material table. -/
def PIECE_VALUES : PieceType → Int
  | .p => 100
  | .n => 320
  | .b => 330
  | .r => 500
  | .q => 900
  | .k => 20000

def pstP : List (List Int) :=
  [[0, 0, 0, 0, 0, 0, 0, 0],
   [50, 50, 50, 50, 50, 50, 50, 50],
   [10, 10, 20, 30, 30, 20, 10, 10],
   [5, 5, 10, 25, 25, 10, 5, 5],
   [0, 0, 0, 20, 20, 0, 0, 0],
   [5, -5, -10, 0, 0, -10, -5, 5],
   [5, 10, 10, -20, -20, 10, 10, 5],
   [0, 0, 0, 0, 0, 0, 0, 0]]

def pstN : List (List Int) :=
  [[-50, -40, -30, -30, -30, -30, -40, -50],
   [-40, -20, 0, 0, 0, 0, -20, -40],
   [-30, 0, 10, 15, 15, 10, 0, -30],
   [-30, 5, 15, 20, 20, 15, 5, -30],
   [-30, 0, 15, 20, 20, 15, 0, -30],
   [-30, 5, 10, 15, 15, 10, 5, -30],
   [-40, -20, 0, 5, 5, 0, -20, -40],
   [-50, -40, -30, -30, -30, -30, -40, -50]]

def pstB : List (List Int) :=
  [[-20, -10, -10, -10, -10, -10, -10, -20],
   [-10, 0, 0, 0, 0, 0, 0, -10],
   [-10, 0, 10, 10, 10, 10, 0, -10],
   [-10, 5, 5, 10, 10, 5, 5, -10],
   [-10, 0, 5, 10, 10, 5, 0, -10],
   [-10, 10, 10, 10, 10, 10, 10, -10],
   [-10, 5, 0, 0, 0, 0, 5, -10],
   [-20, -10, -10, -10, -10, -10, -10, -20]]

def pstR : List (List Int) :=
  [[0, 0, 0, 0, 0, 0, 0, 0],
   [5, 10, 10, 10, 10, 10, 10, 5],
   [-5, 0, 0, 0, 0, 0, 0, -5],
   [-5, 0, 0, 0, 0, 0, 0, -5],
   [-5, 0, 0, 0, 0, 0, 0, -5],
   [-5, 0, 0, 0, 0, 0, 0, -5],
   [-5, 0, 0, 0, 0, 0, 0, -5],
   [0, 0, 0, 5, 5, 0, 0, 0]]

def pstQ : List (List Int) :=
  [[-20, -10, -10, -5, -5, -10, -10, -20],
   [-10, 0, 0, 0, 0, 0, 0, -10],
   [-10, 0, 5, 5, 5, 5, 0, -10],
   [-5, 0, 5, 5, 5, 5, 0, -5],
   [0, 0, 5, 5, 5, 5, 0, -5],
   [-10, 5, 5, 5, 5, 5, 0, -10],
   [-10, 0, 5, 0, 0, 0, 0, -10],
   [-20, -10, -10, -5, -5, -10, -10, -20]]

def pstK : List (List Int) :=
  [[-30, -40, -40, -50, -50, -40, -40, -30],
   [-30, -40, -40, -50, -50, -40, -40, -30],
   [-30, -40, -40, -50, -50, -40, -40, -30],
   [-30, -40, -40, -50, -50, -40, -40, -30],
   [-20, -30, -30, -40, -40, -30, -30, -20],
   [-10, -20, -20, -20, -20, -20, -20, -10],
   [20, 20, 0, 0, 0, 0, 20, 20],
   [20, 30, 10, 0, 0, 10, 30, 20]]

/-- Source `PST`: the per-piece-type piece-square tables (native orientation:
black; the source's comment "from black's perspective, mirrored for
white"). -/
def PST : PieceType → List (List Int)
  | .p => pstP
  | .n => pstN
  | .b => pstB
  | .r => pstR
  | .q => pstQ
  | .k => pstK

def pstAt (t : PieceType) (r c : Nat) : Int :=
  ((PST t).getD r []).getD c 0

/-- The loop body of `evaluateBoard` for one square: black pieces add
`value + PST[type][r][c]` to the score, white pieces subtract
`value + PST[type][7-r][c]`. -/
def evalSquare (boardState : Board) (r : Nat) (score : Int) (c : Nat) : Int :=
  match getSq boardState (r : Int) (c : Int) with
  | none => score
  | some piece =>
    let val := PIECE_VALUES piece.ptype
    let pstVal :=
      if piece.color = .black then pstAt piece.ptype r c
      else pstAt piece.ptype (7 - r) c
    if piece.color = .black then score + (val + pstVal)
    else score - (val + pstVal)

/-- Source `evaluateBoard(boardState)`: the nested accumulation loop over all
squares, starting from 0. -/
def evaluateBoard (boardState : Board) : Int :=
  (List.range 8).foldl
    (fun score (r : Nat) => (List.range 8).foldl (evalSquare boardState r) score)
    0

/-- JavaScript numbers as the search uses them: all computed scores are
finite, `Infinity` / `-Infinity` appear only as alpha/beta seeds and loop
accumulators. -/
inductive Score
  | negInf
  | fin (n : Int)
  | posInf
deriving DecidableEq

/-- Comparison `a <= b` on scores (JS `<=` on non-NaN numbers). -/
def sle : Score → Score → Bool
  | .negInf, _ => true
  | _, .posInf => true
  | .fin a, .fin b => decide (a ≤ b)
  | _, _ => false

/-- Comparison `a < b` on scores. -/
def slt (a b : Score) : Bool := !sle b a

/-- JS `Math.max` on scores. -/
def smax (a b : Score) : Score := if sle a b then b else a

/-- JS `Math.min` on scores. -/
def smin (a b : Score) : Score := if sle a b then a else b

/-- Subtracting a finite constant from a score (`bestScore - 10`). -/
def ssub : Score → Int → Score
  | .negInf, _ => .negInf
  | .fin a, n => .fin (a - n)
  | .posInf, _ => .posInf

/-- The candidate-move simulation the search paths all share (`minimax`'s
two loops, `fallbackAIMove`, the hint fallback): relocate the piece on a
copy, handle the special tags, compute the new en-passant target, and
auto-promote a pawn reaching the last rank to a queen.  Returns the new
board and en-passant target.  (An empty origin square would fault in the
source; unreachable, identity here.) -/
def searchSim (boardState : Board) (move : Move) : Board × Option Pos :=
  match getSq boardState move.fromSq.r move.fromSq.c with
  | none => (boardState, none)
  | some fromPiece =>
    let nb := setSq boardState move.toSq.r move.toSq.c (some fromPiece)
    let nb := setSq nb move.fromSq.r move.fromSq.c none
    let nb :=
      if move.special = some .enpassant then
        setSq nb move.fromSq.r move.toSq.c none
      else nb
    let nb :=
      if move.special = some .castleKS then
        setSq (setSq nb move.fromSq.r 5 (getSq nb move.fromSq.r 7))
          move.fromSq.r 7 none
      else nb
    let nb :=
      if move.special = some .castleQS then
        setSq (setSq nb move.fromSq.r 3 (getSq nb move.fromSq.r 0))
          move.fromSq.r 0 none
      else nb
    let newEP :=
      if move.special = some .doublePush then
        some (⟨(move.fromSq.r + move.toSq.r) / 2, move.fromSq.c⟩ : Pos)
      else none
    let nb :=
      if fromPiece.ptype = .p ∧ (move.toSq.r = 0 ∨ move.toSq.r = 7) then
        setSq nb move.toSq.r move.toSq.c (some ⟨fromPiece.color, .q⟩)
      else nb
    (nb, newEP)

/-- Castling-rights update for a search candidate move (identical king /
rook rules as `makeMove`, applied by `minimax`'s loops to `newCR`). -/
def searchRights (boardState : Board) (castleR : CastlingRights) (color : Color)
    (move : Move) : CastlingRights :=
  match getSq boardState move.fromSq.r move.fromSq.c with
  | some fromPiece => updateRights castleR color fromPiece move
  | none => castleR

/-- The maximizing `for`-loop of `minimax` with its alpha update and
`beta <= alpha` break, threading the global state through the recursive
calls. -/
def maxLoop
    (recurse :
      Globals → Board → CastlingRights → Option Pos → Score → Score →
        Score × Globals)
    (boardState : Board) (castleR : CastlingRights) (color : Color) :
    List Move → Score → Score → Score → Globals → Score × Globals
  | [], maxEval, _, _, g => (maxEval, g)
  | move :: rest, maxEval, alpha, beta, g =>
    let sim := searchSim boardState move
    let newCR := searchRights boardState castleR color move
    let res := recurse g sim.1 newCR sim.2 alpha beta
    let maxEval2 := smax maxEval res.1
    let alpha2 := smax alpha res.1
    if sle beta alpha2 then (maxEval2, res.2)
    else maxLoop recurse boardState castleR color rest maxEval2 alpha2 beta res.2

/-- The minimizing `for`-loop of `minimax` with its beta update and
`beta <= alpha` break. -/
def minLoop
    (recurse :
      Globals → Board → CastlingRights → Option Pos → Score → Score →
        Score × Globals)
    (boardState : Board) (castleR : CastlingRights) (color : Color) :
    List Move → Score → Score → Score → Globals → Score × Globals
  | [], minEval, _, _, g => (minEval, g)
  | move :: rest, minEval, alpha, beta, g =>
    let sim := searchSim boardState move
    let newCR := searchRights boardState castleR color move
    let res := recurse g sim.1 newCR sim.2 alpha beta
    let minEval2 := smin minEval res.1
    let beta2 := smin beta res.1
    if sle beta2 alpha then (minEval2, res.2)
    else minLoop recurse boardState castleR color rest minEval2 alpha beta2 res.2

/-- Source `minimax(boardState, depth, alpha, beta, isMaximizing, currentTurn,
castleR, epTarget)`.  The first component is the returned score; the
second is the global state (`board`, `castlingRights`, `enPassantTarget`),
which the source temporarily swaps to gather legal moves and then
restores.  The side to act is derived from `isMaximizing` (black
maximizes); `currentTurn` is only passed along flipped, as in the
source. -/
def minimax (g : Globals) (boardState : Board) :
    Nat → Score → Score → Bool → Color → CastlingRights → Option Pos →
      Score × Globals
  | 0, _, _, _, _, _, _ => (.fin (evaluateBoard boardState), g)
  | depth + 1, alpha, beta, isMaximizing, _currentTurn, castleR, epTarget =>
    let color := if isMaximizing then Color.black else Color.white
    let saved := g
    let gSwap : Globals := ⟨boardState, castleR, epTarget⟩
    let moves := getLegalMoves gSwap color
    let gRestored := saved
    if moves.isEmpty then
      let kPos := findKing boardState color
      if isSquareAttacked kPos.r kPos.c color boardState then
        (if isMaximizing then Score.fin (-99999 + (3 - ((depth : Int) + 1)))
          else Score.fin (99999 - (3 - ((depth : Int) + 1))), gRestored)
      else (.fin 0, gRestored)
    else if isMaximizing then
      maxLoop
        (fun g2 nb ncr nep a b =>
          minimax g2 nb depth a b false color.other ncr nep)
        boardState castleR color moves .negInf alpha beta gRestored
    else
      minLoop
        (fun g2 nb ncr nep a b =>
          minimax g2 nb depth a b true color.other ncr nep)
        boardState castleR color moves .posInf alpha beta gRestored

structure ScoredMove where
  move : Move
  score : Score
deriving DecidableEq

/-- Source `fallbackAIMove`'s `scoredMoves`: every legal black move paired with
its `minimax` score at `config.depth - 1`, the opponent to reply
(castling rights passed along unchanged — this path does not update
them). -/
def scoredMovesAI (g : Globals) (depth : Nat) : List ScoredMove :=
  (getLegalMoves g .black).map fun m =>
    let sim := searchSim g.board m
    ⟨m,
      (minimax g sim.1 (depth - 1) .negInf .posInf false .white
        g.castlingRights sim.2).1⟩

/-- The descending-score order of `scoredMoves.sort((a, b) => b.score - a.score)`. -/
def aiSortRel (a b : ScoredMove) : Prop := sle b.score a.score = true

instance : DecidableRel aiSortRel := fun _ _ => instDecidableEqBool _ _

def sortedMovesAI (g : Globals) (depth : Nat) : List ScoredMove :=
  (scoredMovesAI g depth).insertionSort aiSortRel

/-- Source `scoredMoves[0].score` after the in-place descending sort. -/
def bestScoreAI (g : Globals) (depth : Nat) : Score :=
  match sortedMovesAI g depth with
  | [] => .fin 0
  | e :: _ => e.score

/-- Source `fallbackAIMove(config)` with the two `Math.random()` draws explicit:
`r1` decides the blunder branch, `r2` the index pick.  With probability
`blunderRate`, pick from the lower half of the sorted moves; otherwise
pick among the moves within 10 centipawns of the best score.  Returns the
chosen move (`none` when the side has no legal move and the function
returns without choosing). -/
def fallbackAIMove (g : Globals) (depth : Nat) (blunderRate r1 r2 : ℚ) :
    Option Move :=
  let moves := getLegalMoves g .black
  if moves.isEmpty then none
  else
    let scoredMoves := scoredMovesAI g depth
    let sorted := sortedMovesAI g depth
    if r1 < blunderRate ∧ 1 < scoredMoves.length then
      let bottomHalf := sorted.drop (scoredMoves.length / 2)
      (bottomHalf[Int.toNat (Int.floor (r2 * (bottomHalf.length : ℚ)))]?).map
        ScoredMove.move
    else
      let topMoves :=
        sorted.filter fun m => sle (ssub (bestScoreAI g depth) 10) m.score
      (topMoves[Int.toNat (Int.floor (r2 * (topMoves.length : ℚ)))]?).map
        ScoredMove.move

/-- Source `ELO_CONFIG`: the difficulty tiers (search depth and blunder rate;
the display names are UI-only). -/
structure EloConfig where
  depth : Nat
  blunderRate : ℚ
deriving DecidableEq

def ELO_CONFIG : Nat → Option EloConfig
  | 250 => some ⟨1, 1/2⟩
  | 500 => some ⟨1, 3/10⟩
  | 800 => some ⟨2, 1/5⟩
  | 1100 => some ⟨2, 2/25⟩
  | 1400 => some ⟨3, 3/100⟩
  | 1800 => some ⟨3, 0⟩
  | _ => none

def fenLetter : PieceType → Char
  | .p => 'p'
  | .r => 'r'
  | .n => 'n'
  | .b => 'b'
  | .q => 'q'
  | .k => 'k'

/-- The rank letter of a piece: uppercase for white, lowercase for black. -/
def pieceFENChar (piece : Piece) : Char :=
  if piece.color = .white then (fenLetter piece.ptype).toUpper
  else fenLetter piece.ptype

/-- The inner column loop of `boardToFEN`: accumulated output string plus
the running `emptyCount`, flushed as a decimal digit count before each
piece letter and at the end of the rank. -/
def rankLoopFEN : List (Option Piece) → List Char → Nat → List Char
  | [], fen, emptyCount =>
    if 0 < emptyCount then fen ++ (toString emptyCount).data else fen
  | none :: rest, fen, emptyCount => rankLoopFEN rest fen (emptyCount + 1)
  | some piece :: rest, fen, emptyCount =>
    rankLoopFEN rest
      ((if 0 < emptyCount then fen ++ (toString emptyCount).data else fen) ++
        [pieceFENChar piece]) 0

/-- Columns 0–7 of row `r` as the loop reads them. -/
def rowCells (bs : Board) (r : Nat) : List (Option Piece) :=
  (List.range 8).map fun c => getSq bs (r : Int) (c : Int)

/-- The outer row loop of `boardToFEN`: ranks accumulated into one
string, `'/'` after every rank but the last. -/
def ranksFEN (bs : Board) : List Char :=
  (List.range 8).foldl
    (fun fen r =>
      rankLoopFEN (rowCells bs r) fen 0 ++ (if r < 7 then ['/'] else []))
    []

/-- The castling-availability token before the `|| "-"` fallback. -/
def castlingFEN (cr : CastlingRights) : List Char :=
  (if cr.white.kingSide then ['K'] else []) ++
  (if cr.white.queenSide then ['Q'] else []) ++
  (if cr.black.kingSide then ['k'] else []) ++
  (if cr.black.queenSide then ['q'] else [])

/-- The en-passant field: file letter `fromCharCode(97 + c)` and rank
digit `8 - r`, or `-`. -/
def epFEN : Option Pos → List Char
  | some t => [Char.ofNat (97 + t.c).toNat] ++ (toString (8 - t.r)).data
  | none => ['-']

/-- Source `boardToFEN()` over the game state, producing the character sequence
of the returned string. -/
def boardToFEN (s : GameState) : List Char :=
  ranksFEN s.board ++
  [' '] ++ (if s.turn = .white then ['w'] else ['b']) ++
  [' '] ++ (if castlingFEN s.castlingRights = [] then ['-']
    else castlingFEN s.castlingRights) ++
  [' '] ++ epFEN s.enPassantTarget ++
  [' '] ++ (toString s.halfMoveClock).data ++
  [' '] ++ (toString (max 1 s.moveCount)).data

/-- Modelled from the spec's serialization wording: a rank's encoding
run-length-encodes maximal runs of empty squares as decimal counts and
occupied squares as piece letters. -/
def rleRank : List (Option Piece) → List Char
  | [] => []
  | none :: rest =>
    (toString (((none :: rest).takeWhile fun o => o.isNone).length)).data ++
      rleRank (rest.dropWhile fun o => o.isNone)
  | some piece :: rest => pieceFENChar piece :: rleRank rest
  termination_by cells => cells.length
  decreasing_by
    · simp only [List.length_cons]
      exact Nat.lt_succ_of_le (List.dropWhile_sublist _).length_le
    · simp

/-- Modelled from the spec's serialization wording: the eight rank
encodings joined by `'/'`, then the side-to-move, castling, en-passant,
half-move-clock and full-move fields, space-separated in this order. -/
def fenSpec (s : GameState) : List Char :=
  List.intercalate ['/']
      ((List.range 8).map fun r => rleRank (rowCells s.board r)) ++
  [' '] ++ (if s.turn = .white then ['w'] else ['b']) ++
  [' '] ++ (if castlingFEN s.castlingRights = [] then ['-']
    else castlingFEN s.castlingRights) ++
  [' '] ++ epFEN s.enPassantTarget ++
  [' '] ++ (toString s.halfMoveClock).data ++
  [' '] ++ (toString (max 1 s.moveCount)).data

/-! ### Concrete positions used by the witnesses -/

def WK : Option Piece := some ⟨.white, .k⟩
def WQ : Option Piece := some ⟨.white, .q⟩
def WR : Option Piece := some ⟨.white, .r⟩
def WN : Option Piece := some ⟨.white, .n⟩
def WP : Option Piece := some ⟨.white, .p⟩
def BK : Option Piece := some ⟨.black, .k⟩
def BQ : Option Piece := some ⟨.black, .q⟩
def BR : Option Piece := some ⟨.black, .r⟩
def BN : Option Piece := some ⟨.black, .n⟩
def BP : Option Piece := some ⟨.black, .p⟩
def OO : Option Piece := none

def emptyRow : List (Option Piece) := [OO, OO, OO, OO, OO, OO, OO, OO]

def noRights : CastlingRights := ⟨⟨false, false⟩, ⟨false, false⟩⟩

/-- Both kings alone on their home squares. -/
def boardKings : Board :=
  [[OO, OO, OO, OO, BK, OO, OO, OO],
   emptyRow, emptyRow, emptyRow, emptyRow, emptyRow, emptyRow,
   [OO, OO, OO, OO, WK, OO, OO, OO]]

/-! ### Legality filter (claims C1, C3) -/

/-- Anything in a fold that only ever appends elements satisfying `P` to
the accumulator satisfies `P`. -/
theorem foldl_acc_pred {β : Type} {P : Move → Prop}
    (f : List Move → β → List Move)
    (hf : ∀ acc b x, x ∈ f acc b → x ∈ acc ∨ P x) :
    ∀ (l : List β) (acc : List Move), (∀ x ∈ acc, P x) →
      ∀ x ∈ l.foldl f acc, P x := by
  intro l
  induction l with
  | nil => intro acc hacc x hx; exact hacc x hx
  | cons b l ih =>
    intro acc hacc x hx
    refine ih (f acc b) ?_ x hx
    intro y hy
    rcases hf acc b y hy with h | h
    · exact hacc y h
    · exact h

/-- Every move of the legal-move set passed the safety filter. -/
theorem mem_getLegalMoves {g : Globals} {color : Color} {move : Move}
    (h : move ∈ getLegalMoves g color) : isMoveSafe g.board move color = true := by
  unfold getLegalMoves at h
  refine foldl_acc_pred (P := fun m => isMoveSafe g.board m color = true) _ ?_
    allSquares [] (by intro x hx; cases hx) move h
  intro acc rc x hx
  cases hgs : getSq g.board rc.1 rc.2 with
  | none =>
    simp only [hgs] at hx
    exact Or.inl hx
  | some piece =>
    simp only [hgs] at hx
    by_cases hc : piece.color = color
    · rw [if_pos hc] at hx
      rcases List.mem_append.1 hx with h1 | h1
      · exact Or.inl h1
      · exact Or.inr (List.mem_filter.1 h1).2
    · rw [if_neg hc] at hx
      exact Or.inl hx

/-- C1: every move returned in the legal-move set leaves the mover's own
king square (the landing square if the king itself moved, else the king's
resting square) unattacked on the position obtained by simulating the
move — the invariant the Legality Filter guarantees. -/
theorem c1_legal_move_king_safe {g : Globals} {color : Color} {move : Move}
    (h : move ∈ getLegalMoves g color) :
    isSquareAttacked (kingCheckSq g.board move color).r
      (kingCheckSq g.board move color).c color (simulateMove g.board move) =
      false := by
  have hsafe := mem_getLegalMoves h
  unfold isMoveSafe at hsafe
  split at hsafe
  · split at hsafe
    · cases hsafe
    · split at hsafe
      · cases hsafe
      · simpa using hsafe
  · split at hsafe
    · split at hsafe
      · cases hsafe
      · split at hsafe
        · cases hsafe
        · simpa using hsafe
    · simpa using hsafe

/-- Witness for C1: the white king's step e1→e2 is legal on the two-kings
board and the resulting position leaves the white king unattacked. -/
theorem c1_witness :
    (⟨⟨7, 4⟩, ⟨6, 4⟩, none⟩ : Move) ∈
        getLegalMoves ⟨boardKings, noRights, none⟩ .white ∧
      isSquareAttacked
        (kingCheckSq boardKings ⟨⟨7, 4⟩, ⟨6, 4⟩, none⟩ .white).r
        (kingCheckSq boardKings ⟨⟨7, 4⟩, ⟨6, 4⟩, none⟩ .white).c .white
        (simulateMove boardKings ⟨⟨7, 4⟩, ⟨6, 4⟩, none⟩) = false :=
  ⟨by decide,
    @c1_legal_move_king_safe ⟨boardKings, noRights, none⟩ .white
      ⟨⟨7, 4⟩, ⟨6, 4⟩, none⟩ (by decide)⟩

/-- White may castle kingside, everything else untouched. -/
def wKSRights : CastlingRights := ⟨⟨true, false⟩, ⟨false, false⟩⟩

/-- White king e1 and rook h1, black king e8: clean kingside castle. -/
def boardCastleOK : Board :=
  [[OO, OO, OO, OO, BK, OO, OO, OO],
   emptyRow, emptyRow, emptyRow, emptyRow, emptyRow, emptyRow,
   [OO, OO, OO, OO, WK, OO, OO, WR]]

/-- Same, but a black rook on f8 attacks the transit square f1. -/
def boardCastleAtt : Board :=
  [[OO, OO, OO, OO, BK, BR, OO, OO],
   emptyRow, emptyRow, emptyRow, emptyRow, emptyRow, emptyRow,
   [OO, OO, OO, OO, WK, OO, OO, WR]]

/-- C3: a castle move is accepted by the safety filter only if the king's
origin square and the transit square (origin column +1 kingside, −1
queenside) are unattacked on the pre-move board, on top of the general
post-move check of the king's square on the simulated board; a castle
move whose transit square is attacked is excluded from the legal-move
set. -/
theorem c3_castle_safety {g : Globals} {move : Move} {color : Color}
    (h : move.special = some Special.castleKS ∨
      move.special = some Special.castleQS) :
    (isMoveSafe g.board move color = true →
      isSquareAttacked move.fromSq.r move.fromSq.c color g.board = false ∧
      isSquareAttacked move.fromSq.r
        (move.fromSq.c +
          (if move.special = some Special.castleKS then 1 else -1))
        color g.board = false ∧
      isSquareAttacked (kingCheckSq g.board move color).r
        (kingCheckSq g.board move color).c color (simulateMove g.board move) =
        false) ∧
    (isSquareAttacked move.fromSq.r
        (move.fromSq.c +
          (if move.special = some Special.castleKS then 1 else -1))
        color g.board = true →
      move ∉ getLegalMoves g color) := by
  have main : isMoveSafe g.board move color = true →
      isSquareAttacked move.fromSq.r move.fromSq.c color g.board = false ∧
      isSquareAttacked move.fromSq.r
        (move.fromSq.c +
          (if move.special = some Special.castleKS then 1 else -1))
        color g.board = false ∧
      isSquareAttacked (kingCheckSq g.board move color).r
        (kingCheckSq g.board move color).c color (simulateMove g.board move) =
        false := by
    intro hsafe
    unfold isMoveSafe at hsafe
    rcases h with hs | hs <;> rw [hs] at hsafe ⊢ <;> simp at hsafe ⊢
    · exact hsafe
    · simpa [sub_eq_add_neg] using hsafe
  refine ⟨main, ?_⟩
  intro hatt hmem
  have h2 := (main (mem_getLegalMoves hmem)).2.1
  rw [hatt] at h2
  cases h2

/-- Witness for C3: on `boardCastleAtt` the transit square f1 is attacked
and white's kingside castle is excluded from the legal-move set; on
`boardCastleOK` the filter accepts it, so the transit square is
unattacked there. -/
theorem c3_witness :
    ((⟨⟨7, 4⟩, ⟨7, 6⟩, some .castleKS⟩ : Move) ∉
        getLegalMoves ⟨boardCastleAtt, wKSRights, none⟩ .white) ∧
      isSquareAttacked 7 5 .white boardCastleOK = false :=
  ⟨(@c3_castle_safety ⟨boardCastleAtt, wKSRights, none⟩
        ⟨⟨7, 4⟩, ⟨7, 6⟩, some .castleKS⟩ .white (Or.inl rfl)).2 (by decide),
    (@c3_castle_safety ⟨boardCastleOK, wKSRights, none⟩
        ⟨⟨7, 4⟩, ⟨7, 6⟩, some .castleKS⟩ .white (Or.inl rfl)).1 (by decide) |>.2.1⟩

/-! ### Promotion handling (claims C4, C5) -/

/-- White pawn on d7 about to promote; kings h8 and e1. -/
def boardPromo : Board :=
  [[OO, OO, OO, OO, OO, OO, OO, BK],
   [OO, OO, OO, WP, OO, OO, OO, OO],
   emptyRow, emptyRow, emptyRow, emptyRow, emptyRow,
   [OO, OO, OO, OO, WK, OO, OO, OO]]

def statePromo : GameState :=
  ⟨boardPromo, .white, noRights, none, [], [], 1, 0, none, .pvp, false⟩

def movePromo : Move := ⟨⟨1, 3⟩, ⟨0, 3⟩, none⟩

/-- C4: a pawn move to the last rank without a supplied promotion choice,
outside the solo-mode auto-queen case, only parks the move in
`pendingPromotion`: the whole state is otherwise unchanged (board,
castling rights, turn, clocks, captured-material ledger included), and
`handlePromotionChoice` then commits exactly the held move with the
chosen piece. -/
theorem c4_pending_promotion_frame {s : GameState} {move : Move} {pc : Piece}
    (hp : getSq s.board move.fromSq.r move.fromSq.c = some pc)
    (hpawn : pc.ptype = .p)
    (hlast : move.toSq.r = 0 ∨ move.toSq.r = 7)
    (hauto : ¬(s.gameMode = .solo ∧ s.turn = .black)) :
    makeMove s move none = { s with pendingPromotion := some move } ∧
      ∀ t, handlePromotionChoice { s with pendingPromotion := some move } t =
        { makeMove { s with pendingPromotion := some move } move (some t) with
            pendingPromotion := none } := by
  constructor
  · unfold makeMove
    rw [hp]
    exact if_pos ⟨⟨rfl, hpawn, hlast⟩, hauto⟩
  · intro t
    rfl

/-- Witness for C4 on the concrete promotion position. -/
theorem c4_witness :
    makeMove statePromo movePromo none =
        { statePromo with pendingPromotion := some movePromo } ∧
      handlePromotionChoice
          { statePromo with pendingPromotion := some movePromo } .q =
        { makeMove { statePromo with pendingPromotion := some movePromo }
            movePromo (some .q) with pendingPromotion := none } :=
  ⟨(@c4_pending_promotion_frame statePromo movePromo ⟨.white, .p⟩
      (by decide) rfl (Or.inl rfl) (by decide)).1,
    (@c4_pending_promotion_frame statePromo movePromo ⟨.white, .p⟩
      (by decide) rfl (Or.inl rfl) (by decide)).2 .q⟩

def stateNoPending : GameState :=
  ⟨boardKings, .white, noRights, none, [], [], 1, 0, none, .pvp, false⟩

/-- Counterexample for C5: with no promotion pending,
`handlePromotionChoice` returns the state unchanged — the call is
silently ignored, observably indistinguishable from not calling at all,
so no `IllegalStateTransition` is reported to the caller. -/
theorem c5_counterexample :
    handlePromotionChoice stateNoPending .q = stateNoPending := rfl

/-- C5 (amended): attempting to resolve a promotion when none is pending
is silently ignored — `handlePromotionChoice` leaves the game state
unchanged. -/
theorem c5_no_pending_silent_noop {s : GameState} {t : PieceType}
    (h : s.pendingPromotion = none) : handlePromotionChoice s t = s := by
  unfold handlePromotionChoice
  rw [h]

/-- Witness for C5's amended claim. -/
theorem c5_witness : handlePromotionChoice stateNoPending .n = stateNoPending :=
  c5_no_pending_silent_noop rfl

/-! ### Move counters (claim C2) -/

/-- Kings plus a white knight on g1. -/
def boardWN : Board :=
  [[OO, OO, OO, OO, BK, OO, OO, OO],
   emptyRow, emptyRow, emptyRow, emptyRow, emptyRow, emptyRow,
   [OO, OO, OO, OO, WK, OO, WN, OO]]

/-- Kings plus a black knight on g8. -/
def boardBN : Board :=
  [[OO, OO, OO, OO, BK, OO, BN, OO],
   emptyRow, emptyRow, emptyRow, emptyRow, emptyRow, emptyRow,
   [OO, OO, OO, OO, WK, OO, OO, OO]]

def stateWhiteMove : GameState :=
  ⟨boardWN, .white, noRights, none, [], [], 1, 0, none, .pvp, false⟩

def stateBlackMove : GameState :=
  ⟨boardBN, .black, noRights, none, [], [], 1, 0, none, .pvp, false⟩

/-- C2 fails on the code: `makeMove` increments the full-move counter
when the move just made was *white's* (the check `turn === "white"` runs
before the turn switch, so `turn` is still the mover), and leaves it
unchanged after a black move — the opposite of the claimed (and
FEN-standard) behavior.  Shown here on concrete knight moves; the
half-move clock conjunct confirms the clock still increments on a
quiet non-pawn move as claimed. -/
theorem c2_fullmove_counter_inverted :
    (makeMove stateWhiteMove ⟨⟨7, 6⟩, ⟨5, 5⟩, none⟩ none).moveCount =
        stateWhiteMove.moveCount + 1 ∧
      (makeMove stateBlackMove ⟨⟨0, 6⟩, ⟨2, 5⟩, none⟩ none).moveCount =
        stateBlackMove.moveCount ∧
      (makeMove stateWhiteMove ⟨⟨7, 6⟩, ⟨5, 5⟩, none⟩ none).halfMoveClock =
        stateWhiteMove.halfMoveClock + 1 := by
  decide

/-! ### The search never corrupts the live globals (claim C10) -/

/-- The maximizing loop hands back exactly the global state it was given,
provided each recursive call does. -/
theorem maxLoop_globals
    (recurse :
      Globals → Board → CastlingRights → Option Pos → Score → Score →
        Score × Globals)
    (hrec : ∀ g nb ncr nep a b, (recurse g nb ncr nep a b).2 = g)
    (bs : Board) (cr : CastlingRights) (color : Color) :
    ∀ (moves : List Move) (me alpha beta : Score) (g : Globals),
      (maxLoop recurse bs cr color moves me alpha beta g).2 = g := by
  intro moves
  induction moves with
  | nil => intro me alpha beta g; rfl
  | cons m rest ih =>
    intro me alpha beta g
    simp only [maxLoop]
    split
    · exact hrec g _ _ _ _ _
    · rw [ih, hrec]

/-- The minimizing loop hands back exactly the global state it was given,
provided each recursive call does. -/
theorem minLoop_globals
    (recurse :
      Globals → Board → CastlingRights → Option Pos → Score → Score →
        Score × Globals)
    (hrec : ∀ g nb ncr nep a b, (recurse g nb ncr nep a b).2 = g)
    (bs : Board) (cr : CastlingRights) (color : Color) :
    ∀ (moves : List Move) (me alpha beta : Score) (g : Globals),
      (minLoop recurse bs cr color moves me alpha beta g).2 = g := by
  intro moves
  induction moves with
  | nil => intro me alpha beta g; rfl
  | cons m rest ih =>
    intro me alpha beta g
    simp only [minLoop]
    split
    · exact hrec g _ _ _ _ _
    · rw [ih, hrec]

/-- Whole-search lemma: `minimax` hands back exactly the global state it was invoked with. -/
theorem minimax_globals :
    ∀ (d : Nat) (g : Globals) (bs : Board) (alpha beta : Score) (isMax : Bool)
      (t : Color) (cr : CastlingRights) (ep : Option Pos),
      (minimax g bs d alpha beta isMax t cr ep).2 = g := by
  intro d
  induction d with
  | zero => intro g bs alpha beta isMax t cr ep; rfl
  | succ d ih =>
    intro g bs alpha beta isMax t cr ep
    simp only [minimax]
    split <;> split <;>
      first
        | (split <;> rfl)
        | exact maxLoop_globals _
            (fun g2 nb ncr nep a b => ih g2 nb a b _ _ ncr nep) _ _ _ _ _ _ _ _
        | exact minLoop_globals _
            (fun g2 nb ncr nep a b => ih g2 nb a b _ _ ncr nep) _ _ _ _ _ _ _ _

/-- C10: a `minimax` call leaves the live global state unchanged — the
global `board`, `castlingRights` and `enPassantTarget` hold the same
values after the call as before it; the search's temporary swap of the
globals while gathering moves is always restored, through every recursive
call and both loop branches. -/
theorem c10_minimax_preserves_globals (d : Nat) (g : Globals) (bs : Board)
    (alpha beta : Score) (isMax : Bool) (t : Color) (cr : CastlingRights)
    (ep : Option Pos) :
    (minimax g bs d alpha beta isMax t cr ep).2.board = g.board ∧
      (minimax g bs d alpha beta isMax t cr ep).2.castlingRights =
        g.castlingRights ∧
      (minimax g bs d alpha beta isMax t cr ep).2.enPassantTarget =
        g.enPassantTarget := by
  rw [minimax_globals]
  exact ⟨rfl, rfl, rfl⟩

/-! ### Search terminal values (claim C6) -/

/-- Terminal case: `minimax` at positive depth with no legal move for the side to act:
the mate / stalemate terminal value. -/
theorem minimax_no_moves {g : Globals} {bs : Board} {alpha beta : Score}
    {isMax : Bool} {t : Color} {cr : CastlingRights} {ep : Option Pos} (d : Nat)
    (hmoves : getLegalMoves ⟨bs, cr, ep⟩
      (if isMax then Color.black else Color.white) = []) :
    minimax g bs (d + 1) alpha beta isMax t cr ep =
      ((if isSquareAttacked
            (findKing bs (if isMax then Color.black else Color.white)).r
            (findKing bs (if isMax then Color.black else Color.white)).c
            (if isMax then Color.black else Color.white) bs then
          (if isMax then Score.fin (-99999 + (3 - ((d : Int) + 1)))
            else Score.fin (99999 - (3 - ((d : Int) + 1))))
        else Score.fin 0), g) := by
  simp only [minimax, hmoves, List.isEmpty_nil, if_true]
  split <;> split <;> rfl

theorem slt_fin {a b : Int} : slt (.fin a) (.fin b) = true ↔ a < b := by
  simp [slt, sle, Int.not_le]

/-- C6: `minimax` at depth 0 returns the evaluator's score of the board;
at positive depth with no legal move for the side to act it returns the
depth-biased mate score (negative for the maximizing side, positive for
the minimizing side, and strictly better for the mating side the more
depth remains, i.e. the faster the mate) when that side's king is
attacked, and exactly 0 (stalemate) when it is not. -/
theorem c6_minimax_terminal {g : Globals} {bs : Board} {alpha beta : Score}
    {isMax : Bool} {t : Color} {cr : CastlingRights} {ep : Option Pos}
    {d d2 : Nat}
    (hmoves : getLegalMoves ⟨bs, cr, ep⟩
      (if isMax then Color.black else Color.white) = [])
    (hd : d < d2) :
    (minimax g bs 0 alpha beta isMax t cr ep).1 = .fin (evaluateBoard bs) ∧
    (minimax g bs (d + 1) alpha beta isMax t cr ep).1 =
      (if isSquareAttacked
          (findKing bs (if isMax then Color.black else Color.white)).r
          (findKing bs (if isMax then Color.black else Color.white)).c
          (if isMax then Color.black else Color.white) bs then
        (if isMax then Score.fin (-99999 + (3 - ((d : Int) + 1)))
          else Score.fin (99999 - (3 - ((d : Int) + 1))))
      else Score.fin 0) ∧
    (isSquareAttacked
        (findKing bs (if isMax then Color.black else Color.white)).r
        (findKing bs (if isMax then Color.black else Color.white)).c
        (if isMax then Color.black else Color.white) bs = true →
      (isMax = true →
        slt (minimax g bs (d + 1) alpha beta isMax t cr ep).1 (.fin 0) = true ∧
        slt (minimax g bs (d2 + 1) alpha beta isMax t cr ep).1
          (minimax g bs (d + 1) alpha beta isMax t cr ep).1 = true) ∧
      (isMax = false →
        slt (.fin 0) (minimax g bs (d + 1) alpha beta isMax t cr ep).1 = true ∧
        slt (minimax g bs (d + 1) alpha beta isMax t cr ep).1
          (minimax g bs (d2 + 1) alpha beta isMax t cr ep).1 = true)) := by
  have h1 := @minimax_no_moves g bs alpha beta isMax t cr ep d hmoves
  have h2 := @minimax_no_moves g bs alpha beta isMax t cr ep d2 hmoves
  refine ⟨rfl, by rw [h1], ?_⟩
  intro hatt
  constructor
  · intro hMax
    subst hMax
    simp at hatt h1 h2
    rw [h1, h2]
    simp [hatt, slt_fin]
    omega
  · intro hMax
    subst hMax
    simp at hatt h1 h2
    rw [h1, h2]
    simp [hatt, slt_fin]
    omega

/-- Black king h8 checkmated by white queen g7 guarded by king g6. -/
def boardMate : Board :=
  [[OO, OO, OO, OO, OO, OO, OO, BK],
   [OO, OO, OO, OO, OO, OO, WQ, OO],
   [OO, OO, OO, OO, OO, OO, WK, OO],
   emptyRow, emptyRow, emptyRow, emptyRow, emptyRow]

/-- Black king a8 stalemated by white queen c7 and king c6. -/
def boardStale : Board :=
  [[BK, OO, OO, OO, OO, OO, OO, OO],
   [OO, OO, WQ, OO, OO, OO, OO, OO],
   [OO, OO, WK, OO, OO, OO, OO, OO],
   emptyRow, emptyRow, emptyRow, emptyRow, emptyRow]

/-- Witness for C6: mate value `-99997` at depth 1, strictly better
(lower) at depth 2, stalemate value `0`, and the depth-0 evaluator
value, all on concrete positions. -/
theorem c6_witness :
    (minimax ⟨boardMate, noRights, none⟩ boardMate 1 .negInf .posInf true .black
        noRights none).1 = .fin (-99997) ∧
    slt (minimax ⟨boardMate, noRights, none⟩ boardMate 1 .negInf .posInf true
        .black noRights none).1 (.fin 0) = true ∧
    slt (minimax ⟨boardMate, noRights, none⟩ boardMate 2 .negInf .posInf true
        .black noRights none).1
      (minimax ⟨boardMate, noRights, none⟩ boardMate 1 .negInf .posInf true
        .black noRights none).1 = true ∧
    (minimax ⟨boardStale, noRights, none⟩ boardStale 1 .negInf .posInf true
        .black noRights none).1 = .fin 0 ∧
    (minimax ⟨boardMate, noRights, none⟩ boardMate 0 .negInf .posInf true .black
        noRights none).1 = .fin (evaluateBoard boardMate) := by
  have hm := @c6_minimax_terminal ⟨boardMate, noRights, none⟩ boardMate
    .negInf .posInf true .black noRights none 0 1 (by decide) (by decide)
  have hs := @c6_minimax_terminal ⟨boardStale, noRights, none⟩ boardStale
    .negInf .posInf true .black noRights none 0 1 (by decide) (by decide)
  refine ⟨hm.2.1.trans (by decide), ?_, ?_, hs.2.1.trans (by decide), hm.1⟩
  · exact ((hm.2.2 (by decide)).1 rfl).1
  · exact ((hm.2.2 (by decide)).1 rfl).2

/-! ### The evaluator (claim C7) -/

/-- Modelled from the spec's evaluator wording: the fixed material
values (pawn 100, knight 320, bishop 330, rook 500, queen 900,
king 20000). -/
def specPieceValue : PieceType → Int
  | .p => 100
  | .n => 320
  | .b => 330
  | .r => 500
  | .q => 900
  | .k => 20000

/-- Modelled from the spec's evaluator wording: the contribution of one
occupied square — material value plus the per-piece-type 8×8 table bonus
at the piece's square, with the row mirrored (`7 - r`) for the side that
is not the table's native orientation (white), added positively for the
computer-controlled side (black) and negatively for white. -/
def specSquareScore (bs : Board) (r c : Nat) : Int :=
  match getSq bs (r : Int) (c : Int) with
  | none => 0
  | some piece =>
    let bonus :=
      if piece.color = .black then pstAt piece.ptype r c
      else pstAt piece.ptype (7 - r) c
    if piece.color = .black then specPieceValue piece.ptype + bonus
    else -(specPieceValue piece.ptype + bonus)

/-- Modelled from the spec: the evaluator's score is the sum over all
squares of the signed per-square contribution. -/
def evalSpec (bs : Board) : Int :=
  ∑ r ∈ Finset.range 8, ∑ c ∈ Finset.range 8, specSquareScore bs r c

theorem specPieceValue_eq (t : PieceType) : specPieceValue t = PIECE_VALUES t := by
  cases t <;> rfl

theorem evalSquare_eq (bs : Board) (r : Nat) (s : Int) (c : Nat) :
    evalSquare bs r s c = s + specSquareScore bs r c := by
  unfold evalSquare specSquareScore
  cases getSq bs (r : Int) (c : Int) with
  | none => simp
  | some piece =>
    by_cases hb : piece.color = .black
    · simp [hb, specPieceValue_eq]
    · simp [hb, specPieceValue_eq, sub_eq_add_neg]

/-- An accumulating loop whose body adds `f x` at each step computes
`a + ∑ f`. -/
theorem foldl_eq_sum_of_body (body : Int → Nat → Int) (f : Nat → Int)
    (hb : ∀ s x, body s x = s + f x) :
    ∀ (n : Nat) (a : Int),
      (List.range n).foldl body a = a + ∑ x ∈ Finset.range n, f x := by
  intro n
  induction n with
  | zero => intro a; simp
  | succ n ih =>
    intro a
    rw [List.range_succ, List.foldl_append, ih, Finset.sum_range_succ]
    simp [hb, add_assoc]

/-- C7: the evaluator's score equals the sum over all squares of the
fixed material value plus the mirrored piece-square-table bonus, signed
positively for black (the computer side) and negatively for white. -/
theorem c7_evaluator_signed_table_sum (bs : Board) :
    evaluateBoard bs = evalSpec bs := by
  unfold evaluateBoard evalSpec
  rw [foldl_eq_sum_of_body _
      (fun r => ∑ c ∈ Finset.range 8, specSquareScore bs r c)
      (fun s r =>
        foldl_eq_sum_of_body (evalSquare bs r) (specSquareScore bs r)
          (evalSquare_eq bs r) 8 s)
      8 0]
  simp

/-! ### FEN serialization (claim C9) -/

theorem append_if_flush (l d : List Char) (c : Prop) [Decidable c] :
    (if c then l ++ d else l) = l ++ (if c then d else []) := by
  split <;> simp

/-- The rank loop with the accumulated output stripped off: only the
carried `emptyCount` remains. -/
def rleAux : Nat → List (Option Piece) → List Char
  | k, [] => if 0 < k then (toString k).data else []
  | k, none :: rest => rleAux (k + 1) rest
  | k, some piece :: rest =>
    (if 0 < k then (toString k).data else []) ++
      pieceFENChar piece :: rleAux 0 rest

theorem rankLoopFEN_eq (cells : List (Option Piece)) :
    ∀ (fen : List Char) (k : Nat),
      rankLoopFEN cells fen k = fen ++ rleAux k cells := by
  induction cells with
  | nil =>
    intro fen k
    unfold rankLoopFEN rleAux
    split <;> simp
  | cons cell rest ih =>
    intro fen k
    cases cell with
    | none =>
      unfold rankLoopFEN rleAux
      exact ih fen (k + 1)
    | some piece =>
      unfold rankLoopFEN rleAux
      rw [ih, append_if_flush]
      simp

/-- Peeling the leading run of empty squares off a clean run-length
encoding. -/
theorem rleRank_peel (cells : List (Option Piece)) :
    rleRank cells =
      (if 0 < ((cells.takeWhile fun o => o.isNone).length) then
        (toString ((cells.takeWhile fun o => o.isNone).length)).data
      else []) ++
        rleRank (cells.dropWhile fun o => o.isNone) := by
  cases cells with
  | nil => simp [rleRank]
  | cons cell rest =>
    cases cell with
    | none =>
      rw [rleRank]
      simp [List.takeWhile_cons, List.dropWhile_cons]
    | some piece =>
      rw [rleRank]
      simp [List.takeWhile_cons, List.dropWhile_cons, rleRank]

/-- The carried `emptyCount` merges into the leading empty run. -/
theorem rleAux_eq (cells : List (Option Piece)) :
    ∀ k : Nat,
      rleAux k cells =
        (if 0 < k + ((cells.takeWhile fun o => o.isNone).length) then
          (toString (k + ((cells.takeWhile fun o => o.isNone).length))).data
        else []) ++ rleRank (cells.dropWhile fun o => o.isNone) := by
  induction cells with
  | nil => intro k; simp [rleAux, rleRank]
  | cons cell rest ih =>
    intro k
    cases cell with
    | none =>
      rw [rleAux, ih (k + 1)]
      simp only [List.takeWhile_cons, List.dropWhile_cons, Option.isNone_none,
        if_true, List.length_cons]
      have harith : k + 1 + (rest.takeWhile fun o => o.isNone).length =
          k + ((rest.takeWhile fun o => o.isNone).length + 1) := by omega
      rw [harith]
    | some piece =>
      rw [rleAux, ih 0]
      simp only [List.takeWhile_cons, List.dropWhile_cons, Option.isNone_some,
        Bool.false_eq_true, if_false, List.length_nil, Nat.zero_add]
      rw [← rleRank_peel]
      simp [rleRank]

/-- The rank loop started with `emptyCount = 0` appends the clean
run-length encoding of the rank. -/
theorem rankLoopFEN_zero (cells : List (Option Piece)) (fen : List Char) :
    rankLoopFEN cells fen 0 = fen ++ rleRank cells := by
  rw [rankLoopFEN_eq, rleAux_eq]
  simp only [Nat.zero_add]
  rw [← rleRank_peel]

/-- The accumulated row loop of `boardToFEN` produces the ranks joined by
`'/'`. -/
theorem ranksFEN_eq (bs : Board) :
    ranksFEN bs =
      List.intercalate ['/']
        ((List.range 8).map fun r => rleRank (rowCells bs r)) := by
  unfold ranksFEN
  rw [show List.range 8 = [0, 1, 2, 3, 4, 5, 6, 7] from rfl]
  simp [List.intercalate, List.intersperse, rankLoopFEN_zero]

/-- C9: `boardToFEN` is the spec's single-line format — the eight ranks,
row 0 first, each run-length-encoded with digit counts for empty squares
and piece letters (uppercase white, lowercase black), joined by `'/'`;
then the side-to-move token, the `KQkq`-subset castling token (or `-`),
the en-passant token (file letter + rank digit, or `-`), the half-move
clock, and a full-move number that is at least 1, space-separated in this
order. -/
theorem c9_fen_format (s : GameState) :
    boardToFEN s = fenSpec s ∧ 1 ≤ max 1 s.moveCount := by
  constructor
  · unfold boardToFEN fenSpec
    rw [ranksFEN_eq]
  · exact le_max_left 1 _

/-! ### Difficulty policy (claim C8) -/

theorem sle_refl (a : Score) : sle a a = true := by
  cases a <;> simp [sle]

theorem sle_total (a b : Score) : sle a b = true ∨ sle b a = true := by
  cases a <;> cases b <;> simp [sle] <;> omega

theorem sle_trans {a b c : Score} (h1 : sle a b = true) (h2 : sle b c = true) :
    sle a c = true := by
  cases a <;> cases b <;> cases c <;> simp_all [sle] <;> omega

instance : IsTotal ScoredMove aiSortRel :=
  ⟨fun a b => (sle_total b.score a.score).elim Or.inl Or.inr⟩

instance : IsTrans ScoredMove aiSortRel :=
  ⟨fun _ _ _ hab hbc => sle_trans hbc hab⟩

/-- Fixed tolerance: a score is always within 10 of itself. -/
theorem ssub_ten_le (s : Score) : sle (ssub s 10) s = true := by
  cases s <;> simp [ssub, sle]

/-- The index `Math.floor(random * length)` is in range for a draw in
`[0, 1)` and a non-empty list. -/
theorem floor_index_lt {r2 : ℚ} (_h0 : 0 ≤ r2) (h1 : r2 < 1) {L : Nat}
    (hL : 0 < L) : Int.toNat (Int.floor (r2 * (L : ℚ))) < L := by
  have h2 : r2 * (L : ℚ) < (L : ℚ) := by
    calc r2 * (L : ℚ) < 1 * (L : ℚ) :=
          mul_lt_mul_of_pos_right h1 (by exact_mod_cast hL)
      _ = (L : ℚ) := one_mul _
  have h3 : Int.floor (r2 * (L : ℚ)) < (L : Int) := by
    rw [Int.floor_lt]
    exact_mod_cast h2
  omega

/-- Every scored move's move field is a legal black move. -/
theorem mem_scoredMovesAI {g : Globals} {depth : Nat} {e : ScoredMove}
    (h : e ∈ scoredMovesAI g depth) : e.move ∈ getLegalMoves g .black := by
  unfold scoredMovesAI at h
  rcases List.mem_map.1 h with ⟨mv, hmv, he⟩
  rw [← he]
  exact hmv

theorem mem_sortedMovesAI {g : Globals} {depth : Nat} {e : ScoredMove}
    (h : e ∈ sortedMovesAI g depth) : e.move ∈ getLegalMoves g .black :=
  mem_scoredMovesAI ((List.perm_insertionSort aiSortRel _).mem_iff.1 h)

/-- The head score of the sorted list bounds every score in it. -/
theorem sorted_le_best {g : Globals} {depth : Nat} {e : ScoredMove}
    (h : e ∈ sortedMovesAI g depth) :
    sle e.score (bestScoreAI g depth) = true := by
  have hsorted : (sortedMovesAI g depth).Sorted aiSortRel :=
    List.sorted_insertionSort aiSortRel (scoredMovesAI g depth)
  unfold bestScoreAI
  cases hs : sortedMovesAI g depth with
  | nil => rw [hs] at h; cases h
  | cons e0 rest =>
    rw [hs] at h hsorted
    rcases List.mem_cons.1 h with rfl | hmem
    · exact sle_refl _
    · exact (List.sorted_cons.1 hsorted).1 e hmem

/-- C8: for every outcome of the two random draws (the index draw in
`[0,1)`), the difficulty policy chooses no move exactly when black has no
legal move; otherwise it always chooses a member of the legal-move set,
taken from the lower half of the moves sorted by score when the blunder
branch fires (`r1 < blunderRate`, at least two moves), and otherwise from
the moves whose score is within 10 centipawns of the best (maximal)
score. -/
theorem c8_fallback_policy (g : Globals) (depth : Nat) (blunderRate r1 r2 : ℚ)
    (h0 : 0 ≤ r2) (h1 : r2 < 1) :
    (getLegalMoves g .black = [] →
      fallbackAIMove g depth blunderRate r1 r2 = none) ∧
    (getLegalMoves g .black ≠ [] →
      ∃ m, fallbackAIMove g depth blunderRate r1 r2 = some m ∧
        m ∈ getLegalMoves g .black ∧
        ((r1 < blunderRate ∧ 1 < (scoredMovesAI g depth).length) →
          m ∈ ((sortedMovesAI g depth).drop
            ((scoredMovesAI g depth).length / 2)).map ScoredMove.move) ∧
        (¬(r1 < blunderRate ∧ 1 < (scoredMovesAI g depth).length) →
          ∃ e ∈ sortedMovesAI g depth, e.move = m ∧
            sle (ssub (bestScoreAI g depth) 10) e.score = true ∧
            ∀ e2 ∈ sortedMovesAI g depth,
              sle e2.score (bestScoreAI g depth) = true)) := by
  constructor
  · intro hempty
    unfold fallbackAIMove
    simp [hempty]
  · intro hne
    have hnemp : (getLegalMoves g .black).isEmpty = false := by
      simpa [List.isEmpty_iff] using hne
    have hlenSorted : (sortedMovesAI g depth).length =
        (scoredMovesAI g depth).length :=
      List.length_insertionSort _ _
    have hlenScored : (scoredMovesAI g depth).length =
        (getLegalMoves g .black).length := by
      simp [scoredMovesAI]
    have hposSorted : 0 < (sortedMovesAI g depth).length := by
      rw [hlenSorted, hlenScored]
      exact List.length_pos.2 hne
    by_cases hbr : r1 < blunderRate ∧ 1 < (scoredMovesAI g depth).length
    · set bh := (sortedMovesAI g depth).drop ((scoredMovesAI g depth).length / 2)
        with hbhdef
      have hbhlen : 0 < bh.length := by
        rw [hbhdef, List.length_drop, hlenSorted]
        omega
      have hidx := floor_index_lt h0 h1 hbhlen
      have hfb : fallbackAIMove g depth blunderRate r1 r2 =
          some (bh[Int.toNat (Int.floor (r2 * (bh.length : ℚ)))]).move := by
        unfold fallbackAIMove
        simp only [hnemp, Bool.false_eq_true, if_false, if_pos hbr]
        rw [← hbhdef, List.getElem?_eq_getElem hidx]
        rfl
      have hmemDrop : bh[Int.toNat (Int.floor (r2 * (bh.length : ℚ)))] ∈ bh :=
        List.getElem_mem hidx
      refine ⟨_, hfb, ?_, fun _ => List.mem_map_of_mem _ hmemDrop, ?_⟩
      · exact mem_sortedMovesAI (List.drop_subset _ _ hmemDrop)
      · intro hn
        exact absurd hbr hn
    · have hfmem : ∃ e0 rest, sortedMovesAI g depth = e0 :: rest := by
        cases hs : sortedMovesAI g depth with
        | nil => rw [hs] at hposSorted; cases hposSorted
        | cons e0 rest => exact ⟨e0, rest, rfl⟩
      rcases hfmem with ⟨e0, rest, hs⟩
      have hbest : bestScoreAI g depth = e0.score := by
        unfold bestScoreAI
        rw [hs]
      set tm := (sortedMovesAI g depth).filter
        (fun m => sle (ssub (bestScoreAI g depth) 10) m.score) with htmdef
      have he0top : e0 ∈ tm := by
        rw [htmdef, List.mem_filter]
        refine ⟨by rw [hs]; exact List.mem_cons_self _ _, ?_⟩
        rw [hbest]
        exact ssub_ten_le _
      have htmlen : 0 < tm.length :=
        List.length_pos.2 (fun hnil => by rw [hnil] at he0top; cases he0top)
      have hidx := floor_index_lt h0 h1 htmlen
      have hfb : fallbackAIMove g depth blunderRate r1 r2 =
          some (tm[Int.toNat (Int.floor (r2 * (tm.length : ℚ)))]).move := by
        unfold fallbackAIMove
        simp only [hnemp, Bool.false_eq_true, if_false, if_neg hbr]
        rw [← htmdef, List.getElem?_eq_getElem hidx]
        rfl
      have hmemTop : tm[Int.toNat (Int.floor (r2 * (tm.length : ℚ)))] ∈ tm :=
        List.getElem_mem hidx
      have hmemTop2 : tm[Int.toNat (Int.floor (r2 * (tm.length : ℚ)))] ∈
          (sortedMovesAI g depth).filter
            (fun m => sle (ssub (bestScoreAI g depth) 10) m.score) := by
        rw [← htmdef]
        exact hmemTop
      have hmemSorted := List.mem_of_mem_filter hmemTop2
      refine ⟨_, hfb, mem_sortedMovesAI hmemSorted, ?_, ?_⟩
      · intro hcontra
        exact absurd hcontra hbr
      · intro _
        refine ⟨_, hmemSorted, rfl, (List.mem_filter.1 hmemTop2).2, ?_⟩
        intro e2 he2
        exact sorted_le_best he2

def gC8 : Globals := ⟨boardKings, noRights, none⟩

/-- Witness for C8: on the two-kings board (black to move, tier depth 1,
blunder rate 0, both draws 0) a move is chosen, it is legal, and it comes
from the within-10-of-best set. -/
theorem c8_witness :
    getLegalMoves gC8 .black ≠ [] ∧
      ∃ m, fallbackAIMove gC8 1 0 0 0 = some m ∧
        m ∈ getLegalMoves gC8 .black ∧
        ((0 : ℚ) < 0 ∧ 1 < (scoredMovesAI gC8 1).length →
          m ∈ ((sortedMovesAI gC8 1).drop
            ((scoredMovesAI gC8 1).length / 2)).map ScoredMove.move) ∧
        (¬((0 : ℚ) < 0 ∧ 1 < (scoredMovesAI gC8 1).length) →
          ∃ e ∈ sortedMovesAI gC8 1, e.move = m ∧
            sle (ssub (bestScoreAI gC8 1) 10) e.score = true ∧
            ∀ e2 ∈ sortedMovesAI gC8 1,
              sle e2.score (bestScoreAI gC8 1) = true) :=
  ⟨by decide,
    (c8_fallback_policy gC8 1 0 0 0 le_rfl (by norm_num)).2 (by decide)⟩

end ChessMaster
